import Mathlib

/-!
Verification of the schema-driven field engine and MQTT session utilities of
the starlink-taphome-bridge repository (src/starlink_taphome_bridge/):
`starlink.py` (StarlinkGrpcClient: field resolution, value coercion, enum
matching, telemetry conversion), `mqtt_bridge.py` (MqttBridge: flattening,
filtering, retained cache, backoff, command dispatch) and `cli.py` (the
configured command callback).  Python dictionaries are modelled as
association lists with first-occurrence lookup and in-place overwrite,
Python strings as Lean `String` (ASCII case mapping; the repository's field
names, payloads and enum names are ASCII), Python ints as `Int`, and the
blocking gRPC transport as an explicit `Except` parameter.
-/

namespace StarlinkBridge

/-! ## Python dict model

`dictInsert` is `d[k] = v`: the first entry with key `k` is overwritten in
place, otherwise the pair is appended (Python dicts hold each key once, so
"first" is "the" occurrence).  `dictGet` is `d.get(k)`, `dictUpdate` is
`d.update(new)`. -/

def dictInsert {α : Type} : List (String × α) → String → α → List (String × α)
  | [], k, v => [(k, v)]
  | (k', v') :: rest, k, v =>
    if k' = k then (k, v) :: rest else (k', v') :: dictInsert rest k v

def dictGet {α : Type} : List (String × α) → String → Option α
  | [], _ => none
  | (k', v') :: rest, k => if k' = k then some v' else dictGet rest k

def dictUpdate {α : Type} (d new : List (String × α)) : List (String × α) :=
  new.foldl (fun acc kv => dictInsert acc kv.1 kv.2) d

def dictKeys {α : Type} (d : List (String × α)) : List String := d.map (·.1)

/-! ## Python string methods

The string methods the code calls, modelled character-by-character (the
repository handles ASCII topic names, field names and payloads):
`str.strip()`, `str.upper()`/`str.lower()`, `str.replace(old, new)` for
one-character arguments (every call site replaces one character — a
per-character map), `str.split(sep)` for a one-character separator,
`str.startswith`/`str.endswith`, and `sep.join`. -/

def isPySpace (c : Char) : Bool :=
  c = ' ' ∨ c = '\t' ∨ c = '\n' ∨ c = '\r' ∨ c = '\x0b' ∨ c = '\x0c'

def pyStrip (s : String) : String :=
  ⟨((s.data.dropWhile isPySpace).reverse.dropWhile isPySpace).reverse⟩

def pyUpper (s : String) : String := ⟨s.data.map Char.toUpper⟩

def pyLower (s : String) : String := ⟨s.data.map Char.toLower⟩

def replaceChar (s : String) (old new : Char) : String :=
  ⟨s.data.map (fun c => if c = old then new else c)⟩

def pySplitChar (sep : Char) : List Char → List (List Char)
  | [] => [[]]
  | c :: rest =>
    match pySplitChar sep rest with
    | [] => [[c]]
    | cur :: parts => if c = sep then [] :: cur :: parts else (c :: cur) :: parts

def pySplitOnDot (s : String) : List String :=
  (pySplitChar '.' s.data).map fun cs => ⟨cs⟩

def pyStartsWith (s pre : String) : Bool := pre.data.isPrefixOf s.data

def pyEndsWith (s suf : String) : Bool := suf.data.isSuffixOf s.data

def pyJoin (sep : String) : List String → String
  | [] => ""
  | [s] => s
  | s :: rest@(_ :: _) => s ++ sep ++ pyJoin sep rest

/-! ## Python built-ins used by the coercion code

`pyIntParse` models `int(text, 10)`: surrounding whitespace stripped, an
optional sign, then ASCII decimal digits with single underscores permitted
between digits (the CPython integer-literal grammar).  `pyFloatAccepts`
models which strings `float(text)` accepts: surrounding whitespace stripped,
optional sign, then `inf`/`infinity`/`nan` case-insensitively or a decimal
or scientific-notation literal.  The claims depend on acceptance and on the
integer's value, never on IEEE float values. -/

def decDigitsVal (cs : List Char) : Nat :=
  cs.foldl (fun a c => a * 10 + (c.toNat - 48)) 0

def pyDigitRest : List Char → Bool
  | [] => true
  | '_' :: c :: rest => c.isDigit && pyDigitRest rest
  | ['_'] => false
  | c :: rest => c.isDigit && pyDigitRest rest

def pyDigitGroup : List Char → Bool
  | [] => false
  | c :: rest => c.isDigit && pyDigitRest rest

def natFromPyDigits (cs : List Char) : Option Nat :=
  if pyDigitGroup cs then some (decDigitsVal (cs.filter (· ≠ '_'))) else none

def pyIntParse (s : String) : Option Int :=
  match (pyStrip s).data with
  | '+' :: rest => (natFromPyDigits rest).map Int.ofNat
  | '-' :: rest => (natFromPyDigits rest).map (fun n => -(n : Int))
  | cs => (natFromPyDigits cs).map Int.ofNat

def splitAtExp (cs : List Char) : List Char × Option (List Char) :=
  match cs with
  | [] => ([], none)
  | c :: rest =>
    if c = 'e' ∨ c = 'E' then ([], some rest)
    else
      let (m, e) := splitAtExp rest
      (c :: m, e)

def splitAtDot (cs : List Char) : List Char × Option (List Char) :=
  match cs with
  | [] => ([], none)
  | c :: rest =>
    if c = '.' then ([], some rest)
    else
      let (m, e) := splitAtDot rest
      (c :: m, e)

def pyMantissaOk (cs : List Char) : Bool :=
  match splitAtDot cs with
  | (whole, none) => pyDigitGroup whole
  | (whole, some frac) =>
    if frac.any (· = '.') then false
    else if whole.isEmpty then pyDigitGroup frac
    else if frac.isEmpty then pyDigitGroup whole
    else pyDigitGroup whole && pyDigitGroup frac

def pyExpOk (cs : List Char) : Bool :=
  match cs with
  | '+' :: rest => pyDigitGroup rest
  | '-' :: rest => pyDigitGroup rest
  | rest => pyDigitGroup rest

def pyFloatBody (cs : List Char) : Bool :=
  let lower := cs.map Char.toLower
  if lower = "inf".data ∨ lower = "infinity".data ∨ lower = "nan".data then true
  else
    match splitAtExp cs with
    | (mant, none) => pyMantissaOk mant
    | (mant, some e) => pyMantissaOk mant && pyExpOk e

/-- Python `str.strip(".")`: dots removed from both ends. -/
def stripDots (s : String) : String :=
  ⟨((s.data.dropWhile (· = '.')).reverse.dropWhile (· = '.')).reverse⟩

def pyFloatAccepts (s : String) : Bool :=
  match (pyStrip s).data with
  | '+' :: rest => pyFloatBody rest
  | '-' :: rest => pyFloatBody rest
  | cs => pyFloatBody cs

/-! ## Protobuf enum descriptors

An `EnumDescriptor` carries its values in declaration order.
`values_by_name` is first-matching-name lookup, `values_by_number` is
first-matching-number lookup (protobuf maps an aliased number to the first
value declared with it). -/

structure EnumValueDescriptor where
  name : String
  number : Int
deriving DecidableEq, Repr

structure EnumDescriptor where
  values : List EnumValueDescriptor
deriving DecidableEq, Repr

def lookupByName (ed : EnumDescriptor) (s : String) : Option Int :=
  (ed.values.find? (fun v => v.name = s)).map (·.number)

def lookupByNumber (ed : EnumDescriptor) (n : Int) : Option EnumValueDescriptor :=
  ed.values.find? (fun v => v.number = n)

def enumHasNumber (ed : EnumDescriptor) (n : Int) : Bool :=
  ed.values.any (fun v => v.number = n)

def supportedNames (ed : EnumDescriptor) : String :=
  pyJoin ", " (ed.values.map (·.name))

/-! ## Errors escaping `_apply_field` (starlink.py)

`clientError` is `StarlinkClientError(msg)` (`str(exc)` is the message).
`transportError` is an exception raised by the gRPC call: `some (code,
details)` when the exception exposes callable `code()`/`details()` (the raw
`code.name or str(code)` text and the `details` text), `none` with the
`str(exc)` fallback otherwise. -/

inductive ApplyExc where
  | clientError (msg : String)
  | transportError (info : Option (String × String)) (fallback : String)
deriving DecidableEq, Repr

/-- `value.upper().replace("-", "_").replace(" ", "_")`. -/
def normalizeEnumText (value : String) : String :=
  replaceChar (replaceChar (pyUpper value) '-' '_') ' ' '_'

/-- The numbers of the values whose name ends in `_` + the normalized text,
in declaration order. -/
def suffixMatchesOf (ed : EnumDescriptor) (normalized : String) : List Int :=
  (ed.values.filter (fun v => pyEndsWith v.name ("_" ++ normalized))).map (·.number)

/-- `StarlinkGrpcClient._parse_enum` (starlink.py lines 182-209): normalize,
try exact name, then unique `_`-suffix match, then base-10 number. -/
def parseEnum (ed : EnumDescriptor) (fieldName value : String) : Except ApplyExc Int :=
  let normalized := normalizeEnumText value
  match lookupByName ed normalized with
  | some number => .ok number
  | none =>
    match suffixMatchesOf ed normalized with
    | [number] => .ok number
    | _ :: _ :: _ =>
      .error (.clientError ("Ambiguous enum value for " ++ fieldName ++ ": " ++ value))
    | [] =>
      match pyIntParse value with
      | some enumNumber =>
        if enumHasNumber ed enumNumber then .ok enumNumber
        else
          .error (.clientError ("Invalid enum value for " ++ fieldName ++ ": " ++ value
            ++ ". Supported: " ++ supportedNames ed))
      | none =>
        .error (.clientError ("Invalid enum value for " ++ fieldName ++ ": " ++ value
          ++ ". Supported: " ++ supportedNames ed))

/-! ## Field schema and value coercion

`TypeSchema` is a field's protobuf type as the code distinguishes it
(`field.type` / `field.cpp_type`); a message type carries its sub-fields as
`fields_by_name` entries `(name, label == LABEL_REPEATED, type)`.  `PyVal`
is the Python value `_convert_payload` returns: enum results are ints, a
float is kept as its accepted source text (no claim inspects IEEE values),
bytes as the UTF-8 text they encode (exact for Unicode text). -/

inductive TypeSchema where
  | tBool | tInt32 | tInt64 | tSint32 | tSint64 | tSfixed32 | tSfixed64
  | tUint32 | tUint64 | tFixed32 | tFixed64 | tFloat | tDouble
  | tBytes | tString
  | tEnum (ed : EnumDescriptor)
  | tMessage (fields : List (String × Bool × TypeSchema))

inductive PyVal where
  | vBool (b : Bool)
  | vInt (n : Int)
  | vFloat (text : String)
  | vBytes (text : String)
  | vStr (s : String)
deriving DecidableEq, Repr

def isIntKind : TypeSchema → Bool
  | .tInt32 | .tInt64 | .tSint32 | .tSint64 | .tSfixed32 | .tSfixed64
  | .tUint32 | .tUint64 | .tFixed32 | .tFixed64 => true
  | _ => false

def isFloatKind : TypeSchema → Bool
  | .tFloat | .tDouble => true
  | _ => false

/-- `StarlinkGrpcClient._convert_payload` (starlink.py lines 144-180):
strip, then branch on the field's kind exactly as the chain of `if`s does
(enum cpp_type first, then bool, the ten integer types, float/double,
bytes, and pass-through for everything else). -/
def convertPayload (fieldName : String) (ft : TypeSchema) (value : String) :
    Except ApplyExc PyVal :=
  let text := pyStrip value
  match ft with
  | .tEnum ed => (parseEnum ed fieldName text).map .vInt
  | .tBool =>
    let lowered := pyLower text
    if lowered = "1" ∨ lowered = "true" ∨ lowered = "on" ∨ lowered = "yes" then
      .ok (.vBool true)
    else if lowered = "0" ∨ lowered = "false" ∨ lowered = "off" ∨ lowered = "no" then
      .ok (.vBool false)
    else .error (.clientError ("Invalid boolean value for " ++ fieldName ++ ": " ++ value))
  | .tInt32 | .tInt64 | .tSint32 | .tSint64 | .tSfixed32 | .tSfixed64
  | .tUint32 | .tUint64 | .tFixed32 | .tFixed64 =>
    match pyIntParse text with
    | some n => .ok (.vInt n)
    | none => .error (.clientError ("Invalid integer value for " ++ fieldName ++ ": " ++ value))
  | .tFloat | .tDouble =>
    if pyFloatAccepts text then .ok (.vFloat text)
    else .error (.clientError ("Invalid float value for " ++ fieldName ++ ": " ++ value))
  | .tBytes => .ok (.vBytes text)
  | .tString => .ok (.vStr text)
  | .tMessage _ => .ok (.vStr text)

/-- `StarlinkGrpcClient._set_field_on_message` (starlink.py lines 121-142):
walk every segment but the last through singular message fields, then check
and coerce the leaf.  Returns the converted value the code returns (the
populated message itself is not inspected by any claim). -/
def setFieldOnMessage :
    List (String × Bool × TypeSchema) → List String → String → Except ApplyExc PyVal
  -- `_apply_field` guards against an empty `parts`, so this arm is
  -- unreachable (Python would raise IndexError on `parts[-1]`); any error
  -- value keeps the function total without changing reachable behaviour.
  | _, [], _ => .error (.clientError "Field path is empty")
  | fields, part :: rest, value =>
    match rest with
    | [] =>
      match fields.find? (fun f => f.1 = part) with
      | none => .error (.clientError ("Unknown field: " ++ part))
      | some (_, rep, ft) =>
        if rep then .error (.clientError ("Repeated fields are not supported: " ++ part))
        else convertPayload part ft value
    | _ :: _ =>
      match fields.find? (fun f => f.1 = part) with
      | none => .error (.clientError ("Unknown field: " ++ part))
      | some (_, rep, ft) =>
        if rep then .error (.clientError ("Repeated field paths are not supported: " ++ part))
        else
          match ft with
          | .tMessage sub => setFieldOnMessage sub rest value
          | _ => .error (.clientError ("Field is not a message: " ++ part))

/-- `StarlinkGrpcClient._serialize_applied_value` (starlink.py lines
211-214): `bytes.decode("utf-8", errors="ignore")` for bytes (the identity
on bytes that encode Unicode text), `str(value)` otherwise (`str(True)` is
`"True"`, `str(int)` the decimal rendering; a float's `repr` text is not
inspected by any claim and is kept as the stored text). -/
def serializeAppliedValue : PyVal → String
  | .vBytes text => text
  | .vBool b => if b then "True" else "False"
  | .vInt n => toString n
  | .vFloat text => text
  | .vStr s => s

/-- `StarlinkGrpcClient._format_error` (starlink.py lines 216-230). -/
def formatError : ApplyExc → String
  | .clientError msg => msg
  | .transportError none fallback => fallback
  | .transportError (some (code, details)) _ =>
    let codeName :=
      if pyStartsWith code "StatusCode." then
        match pySplitOnDot code with
        | _ :: rest@(_ :: _) => pyJoin "." rest
        | _ => code
      else code
    let detailsText := pyStrip details
    if detailsText = "" then codeName else codeName ++ ": " ++ detailsText

/-! ## The modelled DishConfig schema

Modelled from the spec: the writable partial-update schema root
(`spacex.api.device.dish_config_pb2.DishConfig`) is external to the
repository, introspected at run time.  The spec names one writable leaf,
the heater (snow-melt) mode `dish_config.snow_melt_mode`, an enum with
values `{ALWAYS_ON, ALWAYS_OFF, AUTO}` (section 8), and the per-field
boolean apply-flag convention `apply_<top-level-field>` (section 4.5).
The value numbers 0, 1, 2 follow the spec's listing order; no claim
depends on the particular numbering. -/
def heaterEnum : EnumDescriptor :=
  ⟨[⟨"ALWAYS_ON", 0⟩, ⟨"ALWAYS_OFF", 1⟩, ⟨"AUTO", 2⟩]⟩

def dishConfigSchema : List (String × Bool × TypeSchema) :=
  [("snow_melt_mode", false, .tEnum heaterEnum),
   ("apply_snow_melt_mode", false, .tBool)]

/-- `StarlinkGrpcClient._apply_field` (starlink.py lines 97-119): normalize
the path, strip a leading `dish_config` alias segment, populate a fresh
DishConfig (and its `apply_<field>` flag — the message itself is not
inspected by any claim), submit over gRPC (`transport` is that call's
outcome), and serialize the applied value. -/
def applyField (transport : Except ApplyExc Unit) (path value : String) :
    Except ApplyExc String := do
  let normalizedPath := stripDots (replaceChar (pyStrip path) '/' '.')
  if normalizedPath = "" then
    throw (.clientError "Field path is empty")
  else
    let parts := pySplitOnDot normalizedPath
    let parts := if parts.head? = some "dish_config" then parts.tail else parts
    if parts.isEmpty then
      throw (.clientError "Field path does not target a writable DishConfig field")
    else
      let applied ← setFieldOnMessage dishConfigSchema parts value
      let _ ← transport
      return serializeAppliedValue applied

/-- `models.AppliedResult`. -/
structure AppliedResult where
  requested : String
  applied : Option String
  success : Bool
  message : Option String := none
deriving DecidableEq, Repr

/-- `StarlinkGrpcClient._set_field_sync` (starlink.py lines 70-81): the
catch-all boundary.  Total by construction — every failure `_apply_field`
can raise is an `ApplyExc` value, downgraded here to a failed result. -/
def setFieldSync (transport : Except ApplyExc Unit) (path value : String) :
    AppliedResult :=
  match applyField transport path value with
  | .error exc =>
    { requested := value, applied := none, success := false,
      message := some (formatError exc) }
  | .ok applied =>
    { requested := value, applied := some applied, success := true }

/-! ## Telemetry conversion (`StarlinkGrpcClient._proto_to_dict`)

A runtime protobuf message is its descriptor's field list together with
each field's current value: `PEntry` carries, per field, exactly what
lines 232-255 read — name, repeated/singular, message/enum/scalar kind,
`has_presence` plus `HasField` for singular messages, and the value.
`JVal` is the resulting Python value: scalar, string, list or dict. -/

inductive ScalarVal where
  | sBool (b : Bool)
  | sInt (n : Int)
  | sFloat (text : String)
  | sStr (s : String)
deriving DecidableEq, Repr

inductive PEntry where
  | singScalar (name : String) (v : ScalarVal)
  | singEnum (name : String) (ed : EnumDescriptor) (n : Int)
  | singMsg (name : String) (hasPresence present : Bool) (sub : List PEntry)
  | repScalar (name : String) (vs : List ScalarVal)
  | repMsg (name : String) (items : List (List PEntry))

inductive JVal where
  | jBool (b : Bool)
  | jInt (n : Int)
  | jFloat (text : String)
  | jStr (s : String)
  | jArr (xs : List JVal)
  | jObj (entries : List (String × JVal))

def scalarToJ : ScalarVal → JVal
  | .sBool b => .jBool b
  | .sInt n => .jInt n
  | .sFloat t => .jFloat t
  | .sStr s => .jStr s

def entryName : PEntry → String
  | .singScalar name _ => name
  | .singEnum name _ _ => name
  | .singMsg name _ _ _ => name
  | .repScalar name _ => name
  | .repMsg name _ => name

mutual

/-- The value `_proto_to_dict` stores for one field: repeated messages
recurse per item, singular messages honour `has_presence`/`HasField` with
the `{}` marker, known enum numbers render as the value's name. -/
def entryVal : PEntry → JVal
  | .singScalar _ v => scalarToJ v
  | .singEnum _ ed n =>
    match lookupByNumber ed n with
    | some ev => .jStr ev.name
    | none => .jInt n
  | .singMsg _ hasPresence present sub =>
    if hasPresence && !present then .jObj []
    else .jObj (msgToDict [] sub)
  | .repScalar _ vs => .jArr (vs.map scalarToJ)
  | .repMsg _ items => .jArr (itemsToJ items)

def itemsToJ : List (List PEntry) → List JVal
  | [] => []
  | item :: rest => .jObj (msgToDict [] item) :: itemsToJ rest

/-- `_proto_to_dict`'s loop: `result[field.name] = …` over the fields in
declaration order. -/
def msgToDict (acc : List (String × JVal)) : List PEntry → List (String × JVal)
  | [] => acc
  | e :: rest => msgToDict (dictInsert acc (entryName e) (entryVal e)) rest

end

/-! ## MqttBridge (mqtt_bridge.py) -/

/-- `Topics.field` / `Topics.field_set` / `Topics.wildcard`
(mqtt_bridge.py lines 31-42). -/
def fieldTopic (pfx path : String) : String := pfx ++ "/" ++ path

def fieldSetTopic (pfx path : String) : String := fieldTopic pfx path ++ "/set"

def fieldAckTopic (pfx path : String) : String := fieldTopic pfx path ++ "/ack"

def wildcardTopic (pfx : String) : String := pfx ++ "/#"

/-- `MqttBridge._flatten_fields`'s `path = f"{prefix}.{key}" if prefix else
key`. -/
def joinPath (pfx key : String) : String :=
  if pfx = "" then key else pfx ++ "." ++ key

/-- `MqttBridge._flatten_fields` (mqtt_bridge.py lines 186-198), written
with the result dict as an accumulator: dict values recurse, an empty
recursive result leaves the explicit `{}` marker, anything else (scalars
and lists alike) maps directly. -/
def flattenGo (pfx : String) (acc : List (String × JVal)) :
    List (String × JVal) → List (String × JVal)
  | [] => acc
  | (key, .jObj sub) :: rest =>
    let nested := flattenGo (joinPath pfx key) [] sub
    if nested.isEmpty then
      flattenGo pfx (dictInsert acc (joinPath pfx key) (.jObj [])) rest
    else
      flattenGo pfx (dictUpdate acc nested) rest
  | (key, v) :: rest => flattenGo pfx (dictInsert acc (joinPath pfx key) v) rest

def flattenFields (data : List (String × JVal)) : List (String × JVal) :=
  flattenGo "" [] data

/-- `MqttBridge._should_publish` (mqtt_bridge.py lines 204-207). -/
def shouldPublish (filters : List String) (path : String) : Bool :=
  if filters.isEmpty then true
  else filters.any (fun filt => path = filt || pyStartsWith path (filt ++ "."))

/-- The field topics `publish_telemetry` emits (mqtt_bridge.py lines
146-151): the flattened map filtered through `_should_publish`, dots
becoming topic separators. -/
def publishedFieldTopics (pfx : String) (filters : List String)
    (flat : List (String × JVal)) : List String :=
  ((flat.filter (fun p => shouldPublish filters p.1)).map
    (fun p => fieldTopic pfx (replaceChar p.1 '.' '/')))

/-- `MqttBridge._build_command_subscriptions` (mqtt_bridge.py lines
267-272). -/
def buildCommandSubscriptions (pfx : String) (filters : List String) : List String :=
  if filters.isEmpty then [wildcardTopic pfx]
  else filters.map (fun field => fieldSetTopic pfx (replaceChar field '.' '/'))

/-- Modelled from the MQTT specification (the broker is an external
collaborator): a topic filter ending in the multi-level wildcard `#`
matches every topic that extends the filter's parent levels; any other
filter used here is a literal topic.  (MQTT also lets `a/#` match `a`
itself; only the matching direction below is needed.) -/
def coversTopic (filt topic : String) : Bool :=
  match filt.data.reverse with
  | '#' :: parentRev => List.isPrefixOf parentRev.reverse topic.data
  | _ => filt = topic

/-- `Backoff` (mqtt_bridge.py lines 61-73).  The floats are exact here
(doubling and `min`), so ℚ carries them faithfully. -/
structure Backoff where
  minimum : ℚ
  maximum : ℚ
  current : ℚ
deriving DecidableEq, Repr

def Backoff.init (minimum maximum : ℚ) : Backoff :=
  { minimum := minimum, maximum := maximum, current := minimum }

def Backoff.reset (b : Backoff) : Backoff := { b with current := b.minimum }

def Backoff.nextDelay (b : Backoff) : ℚ × Backoff :=
  (b.current, { b with current := min (b.current * 2) b.maximum })

/-- The delays a run of consecutive `next_delay` calls yields. -/
def Backoff.delays (b : Backoff) : Nat → List ℚ
  | 0 => []
  | n + 1 =>
    let (d, b') := b.nextDelay
    d :: b'.delays n

/-! ### The retained cache and live delivery

`BridgeState` holds what `publish`/`_publish_if_value`/`_republish_cached`
touch: `client.is_connected`, the `_last_payloads` cache
(topic → (payload, qos, retain)), and the calls made to
`client.publish` in order (`sent`). -/

structure CacheEntry where
  payload : String
  qos : Nat
  retain : Bool
deriving DecidableEq, Repr

structure BridgeState where
  connected : Bool
  lastPayloads : List (String × CacheEntry)
  sent : List (String × CacheEntry)
deriving DecidableEq, Repr

structure MqttConfigM where
  qos : Nat
  retain : Bool
deriving DecidableEq, Repr

/-- `MqttBridge.publish` (mqtt_bridge.py lines 135-140): record in
`_last_payloads` first, then deliver only if connected. -/
def publish (cfg : MqttConfigM) (st : BridgeState) (topic payload : String)
    (retain : Option Bool) : BridgeState :=
  let entry : CacheEntry := ⟨payload, cfg.qos, retain.getD cfg.retain⟩
  let st := { st with lastPayloads := dictInsert st.lastPayloads topic entry }
  if !st.connected then st
  else { st with sent := st.sent ++ [(topic, entry)] }

/-- `MqttBridge._publish_if_value` (mqtt_bridge.py lines 175-184) for a
non-`None` payload already rendered to text: live delivery if connected,
and the cache updated in every case. -/
def publishIfValue (cfg : MqttConfigM) (st : BridgeState) (topic payload : String) :
    BridgeState :=
  let entry : CacheEntry := ⟨payload, cfg.qos, cfg.retain⟩
  let st :=
    if st.connected then { st with sent := st.sent ++ [(topic, entry)] } else st
  { st with lastPayloads := dictInsert st.lastPayloads topic entry }

/-- `MqttBridge._republish_cached` (mqtt_bridge.py lines 235-237); the
stored qos is the config's int, so `qos or 0` is the stored qos. -/
def republishCached (st : BridgeState) : BridgeState :=
  { st with sent := st.sent ++ st.lastPayloads }

/-- `MqttBridge._on_connect` (mqtt_bridge.py lines 220-233) as it acts on
this state: the connected flag set, then the cache replayed.  The
subscriptions go to the broker, not to `client.publish`, and the retained
"online" status is `asyncio.create_task`-scheduled, running only after
this handler returns. -/
def onConnect (st : BridgeState) : BridgeState :=
  republishCached { st with connected := true }

/-! ## The command path (mqtt_bridge.py lines 244-265, cli.py lines 45-86) -/

/-- A Python callable of fixed arity; calling it with two arguments raises
`TypeError` unless it is binary. -/
inductive PyCallback where
  | unary (f : String → AppliedResult)
  | binary (f : String → String → AppliedResult)

def callWithTwo : PyCallback → String → String → Except String AppliedResult
  | .unary _, _, _ => .error "TypeError: takes 1 positional argument but 2 were given"
  | .binary f, a, b => .ok (f a b)

/-- `MqttBridge._handle_command` (mqtt_bridge.py lines 259-265) as the
(ack topic, result) pairs its task publishes: `await
self._on_command(field_path, payload)` and then exactly one ack on the
field's `/ack` topic (`publish_ack`, lines 160-173) — unless the call
raises, which ends the task before `publish_ack`. -/
def handleCommand (pfx : String) (cb : PyCallback) (fieldPath payload : String) :
    List (String × AppliedResult) :=
  match callWithTwo cb fieldPath payload with
  | .error _ => []
  | .ok result => [(fieldAckTopic pfx (replaceChar fieldPath '.' '/'), result)]

/-- `cli._normalize_heater_mode` (cli.py lines 45-53). -/
def normalizeHeaterMode (value : String) : Except String String :=
  let lowered := pyLower (pyStrip value)
  if lowered = "1" ∨ lowered = "true" ∨ lowered = "on" then .ok "on"
  else if lowered = "0" ∨ lowered = "false" ∨ lowered = "off" then .ok "off"
  else if lowered = "auto" then .ok "auto"
  else .error ("Invalid heater mode: " ++ value)

/-- `cli.on_command` (cli.py lines 80-86): the configured command callback.
It accepts the payload only — one positional argument. -/
def cliOnCommand (transport : Except ApplyExc Unit) (payload : String) : AppliedResult :=
  match normalizeHeaterMode payload with
  | .error msg =>
    { requested := payload, applied := none, success := false, message := some msg }
  | .ok normalized => setFieldSync transport "dish_config.snow_melt_mode" normalized

/-! ## Dictionary lemmas -/

theorem dictGet_dictInsert_self {α : Type} (d : List (String × α)) (k : String) (v : α) :
    dictGet (dictInsert d k v) k = some v := by
  induction d with
  | nil => simp [dictInsert, dictGet]
  | cons hd tl ih =>
    obtain ⟨k', v'⟩ := hd
    by_cases h : k' = k
    · simp [dictInsert, h, dictGet]
    · simp [dictInsert, h, dictGet, ih]

theorem dictGet_dictInsert_ne {α : Type} (d : List (String × α)) {k' k : String} (v : α)
    (h : k' ≠ k) : dictGet (dictInsert d k' v) k = dictGet d k := by
  induction d with
  | nil => simp [dictInsert, dictGet, h]
  | cons hd tl ih =>
    obtain ⟨a, b⟩ := hd
    by_cases ha : a = k'
    · subst ha
      simp [dictInsert, dictGet, h]
    · by_cases hk : a = k
      · subst hk
        simp [dictInsert, dictGet, ha, Ne.symm h]
      · simp [dictInsert, dictGet, ha, hk, ih]

theorem mem_dictInsert {α : Type} {d : List (String × α)} {k : String} {v : α}
    {x : String × α} (h : x ∈ dictInsert d k v) : x ∈ d ∨ x.1 = k := by
  induction d with
  | nil => simp [dictInsert] at h; simp [h]
  | cons hd tl ih =>
    obtain ⟨a, b⟩ := hd
    by_cases ha : a = k
    · simp [dictInsert, ha] at h
      rcases h with h | h
      · simp [h]
      · exact Or.inl (List.mem_cons_of_mem _ h)
    · simp [dictInsert, ha] at h
      rcases h with h | h
      · simp [h]
      · rcases ih h with h' | h'
        · exact Or.inl (List.mem_cons_of_mem _ h')
        · exact Or.inr h'

theorem dictUpdate_cons {α : Type} (d : List (String × α)) (y : String × α)
    (tl : List (String × α)) :
    dictUpdate d (y :: tl) = dictUpdate (dictInsert d y.1 y.2) tl := rfl

theorem dictGet_dictUpdate_notin {α : Type} {new : List (String × α)}
    (d : List (String × α)) {k : String} (h : ∀ y ∈ new, y.1 ≠ k) :
    dictGet (dictUpdate d new) k = dictGet d k := by
  induction new generalizing d with
  | nil => rfl
  | cons y tl ih =>
    rw [dictUpdate_cons, ih _ fun z hz => h z (List.mem_cons_of_mem _ hz),
      dictGet_dictInsert_ne _ _ (h y (List.mem_cons_self _ _))]

theorem mem_dictUpdate {α : Type} {new : List (String × α)} {d : List (String × α)}
    {x : String × α} (h : x ∈ dictUpdate d new) : x ∈ d ∨ ∃ y ∈ new, x.1 = y.1 := by
  induction new generalizing d with
  | nil => exact Or.inl h
  | cons y tl ih =>
    rw [dictUpdate_cons] at h
    rcases ih h with h' | ⟨z, hz, hxz⟩
    · rcases mem_dictInsert h' with h'' | h''
      · exact Or.inl h''
      · exact Or.inr ⟨y, List.mem_cons_self _ _, h''⟩
    · exact Or.inr ⟨z, List.mem_cons_of_mem _ hz, hxz⟩

/-! ## Claim theorems -/

/-- C9: `Backoff.next_delay` returns the current delay and then doubles the
stored delay capped at the ceiling; `reset` restores the floor; with
floor=1 and ceiling=60 the first eight failures yield delays
1, 2, 4, 8, 16, 32, 60, 60, and after a reset the next delay is the floor
again. -/
theorem backoff_doubles_capped_and_resets :
    ((Backoff.init 1 60).delays 8 = [1, 2, 4, 8, 16, 32, 60, 60]) ∧
    (∀ b : Backoff,
      b.nextDelay = (b.current, { b with current := min (b.current * 2) b.maximum })) ∧
    (∀ b : Backoff, b.reset = { b with current := b.minimum }) ∧
    (∀ b : Backoff, b.reset.nextDelay.1 = b.minimum) := by
  refine ⟨by norm_num [Backoff.init, Backoff.delays, Backoff.nextDelay, min_def],
    fun b => rfl, fun b => rfl, fun b => rfl⟩

/-- C7: `publish` (and the telemetry path `_publish_if_value`) records
(payload, qos, retain flag) in the retained cache unconditionally — also
while disconnected — and extends the live deliveries only when connected;
`_on_connect` republishes every cached entry verbatim with its stored
payload, qos and retain flag. -/
theorem publish_caches_always_delivers_connected :
    (∀ (cfg : MqttConfigM) (st : BridgeState) (topic payload : String) (r : Option Bool),
      dictGet (publish cfg st topic payload r).lastPayloads topic
        = some ⟨payload, cfg.qos, r.getD cfg.retain⟩) ∧
    (∀ (cfg : MqttConfigM) (st : BridgeState) (topic payload : String) (r : Option Bool),
      st.connected = false → (publish cfg st topic payload r).sent = st.sent) ∧
    (∀ (cfg : MqttConfigM) (st : BridgeState) (topic payload : String) (r : Option Bool),
      st.connected = true →
        (publish cfg st topic payload r).sent
          = st.sent ++ [(topic, ⟨payload, cfg.qos, r.getD cfg.retain⟩)]) ∧
    (∀ (cfg : MqttConfigM) (st : BridgeState) (topic payload : String),
      dictGet (publishIfValue cfg st topic payload).lastPayloads topic
        = some ⟨payload, cfg.qos, cfg.retain⟩) ∧
    (∀ (cfg : MqttConfigM) (st : BridgeState) (topic payload : String),
      st.connected = false → (publishIfValue cfg st topic payload).sent = st.sent) ∧
    (∀ st : BridgeState,
      (onConnect st).connected = true ∧
      (onConnect st).sent = st.sent ++ st.lastPayloads ∧
      (onConnect st).lastPayloads = st.lastPayloads) := by
  refine ⟨fun cfg st topic payload r => ?_, fun cfg st topic payload r h => ?_,
    fun cfg st topic payload r h => ?_, fun cfg st topic payload => ?_,
    fun cfg st topic payload h => ?_, fun st => ⟨rfl, rfl, rfl⟩⟩
  · cases hc : st.connected <;>
      simp [publish, hc, dictGet_dictInsert_self]
  · simp [publish, h]
  · simp [publish, h]
  · cases hc : st.connected <;>
      simp [publishIfValue, hc, dictGet_dictInsert_self]
  · simp [publishIfValue, h]

/-- C3 (supporting theorem for the code bug): `_handle_command` publishes
exactly one acknowledgement, on the field's matching `/ack` topic,
whenever the configured callback accepts (field_path, payload) — and none
at all when the configured callback is cli.py's one-argument `on_command`,
whose invocation with two arguments raises `TypeError` before
`publish_ack` runs. -/
theorem handle_command_ack_count :
    (∀ (pfx : String) (f : String → String → AppliedResult) (fieldPath payload : String),
      handleCommand pfx (.binary f) fieldPath payload
        = [(fieldAckTopic pfx (replaceChar fieldPath '.' '/'), f fieldPath payload)]) ∧
    (∀ (pfx : String) (g : String → AppliedResult) (fieldPath payload : String),
      handleCommand pfx (.unary g) fieldPath payload = []) ∧
    (handleCommand "taphome/starlink" (.unary (cliOnCommand (.ok ())))
        "dish_config.snow_melt_mode" "on"
      = []) := by
  exact ⟨fun pfx f a b => rfl, fun pfx g a b => rfl, rfl⟩

/-- C4: enum resolution order — exact match on the normalized text wins
immediately; else a unique `_`-suffix match wins, two or more raise the
ambiguity error, zero falls through to a base-10 parse of the raw text
accepted iff it is a known value number; else the unknown-enum error
listing every valid name.  Concretely, "on" against
{ALWAYS_ON, ALWAYS_OFF, AUTO} resolves to ALWAYS_ON (number 0), "AUTO"
matches exactly, and a shared suffix is ambiguous. -/
theorem parse_enum_resolution_order :
    (∀ (ed : EnumDescriptor) (f v : String) (n : Int),
      lookupByName ed (normalizeEnumText v) = some n → parseEnum ed f v = .ok n) ∧
    (∀ (ed : EnumDescriptor) (f v : String) (n : Int),
      lookupByName ed (normalizeEnumText v) = none →
      suffixMatchesOf ed (normalizeEnumText v) = [n] → parseEnum ed f v = .ok n) ∧
    (∀ (ed : EnumDescriptor) (f v : String) (n₁ n₂ : Int) (rest : List Int),
      lookupByName ed (normalizeEnumText v) = none →
      suffixMatchesOf ed (normalizeEnumText v) = n₁ :: n₂ :: rest →
      parseEnum ed f v = .error (.clientError ("Ambiguous enum value for " ++ f ++ ": " ++ v))) ∧
    (∀ (ed : EnumDescriptor) (f v : String) (n : Int),
      lookupByName ed (normalizeEnumText v) = none →
      suffixMatchesOf ed (normalizeEnumText v) = [] →
      pyIntParse v = some n → enumHasNumber ed n = true → parseEnum ed f v = .ok n) ∧
    (∀ (ed : EnumDescriptor) (f v : String),
      lookupByName ed (normalizeEnumText v) = none →
      suffixMatchesOf ed (normalizeEnumText v) = [] →
      (pyIntParse v = none ∨ ∃ n, pyIntParse v = some n ∧ enumHasNumber ed n = false) →
      parseEnum ed f v = .error (.clientError ("Invalid enum value for " ++ f ++ ": " ++ v
        ++ ". Supported: " ++ supportedNames ed))) ∧
    (parseEnum heaterEnum "snow_melt_mode" "on" = .ok 0 ∧
      lookupByName heaterEnum "ALWAYS_ON" = some 0) ∧
    (normalizeEnumText "AUTO" = "AUTO" ∧ lookupByName heaterEnum "AUTO" = some 2 ∧
      parseEnum heaterEnum "snow_melt_mode" "AUTO" = .ok 2) ∧
    (parseEnum ⟨[⟨"ALWAYS_ON", 0⟩, ⟨"SOMETIMES_ON", 1⟩]⟩ "f" "on"
      = .error (.clientError "Ambiguous enum value for f: on")) := by
  refine ⟨fun ed f v n h => by simp [parseEnum, h],
    fun ed f v n h1 h2 => by simp [parseEnum, h1, h2],
    fun ed f v n₁ n₂ rest h1 h2 => by simp [parseEnum, h1, h2],
    fun ed f v n h1 h2 h3 h4 => by simp [parseEnum, h1, h2, h3, h4],
    fun ed f v h1 h2 h3 => ?_, ⟨rfl, rfl⟩, ⟨rfl, rfl, rfl⟩, rfl⟩
  rcases h3 with h3 | ⟨n, h3, h4⟩
  · simp [parseEnum, h1, h2, h3]
  · simp [parseEnum, h1, h2, h3, h4]

/-- A successful `_parse_enum` always returns a known value number: every
branch either reads a declared value's number or checks membership in
`values_by_number`. -/
theorem parseEnum_ok_mem (ed : EnumDescriptor) (f v : String) (n : Int)
    (h : parseEnum ed f v = .ok n) : n ∈ ed.values.map (·.number) := by
  cases h1 : lookupByName ed (normalizeEnumText v) with
  | some k =>
    simp [parseEnum, h1] at h
    subst h
    simp only [lookupByName] at h1
    cases hf : ed.values.find? (fun w => w.name = normalizeEnumText v) with
    | none => rw [hf] at h1; simp at h1
    | some w =>
      rw [hf] at h1
      simp only [Option.map_some', Option.some.injEq] at h1
      exact h1 ▸ List.mem_map_of_mem _ (List.mem_of_find?_eq_some hf)
  | none =>
    cases h2 : suffixMatchesOf ed (normalizeEnumText v) with
    | nil =>
      cases h3 : pyIntParse v with
      | none => simp [parseEnum, h1, h2, h3] at h
      | some i =>
        by_cases h4 : enumHasNumber ed i = true
        · simp [parseEnum, h1, h2, h3, h4] at h
          subst h
          simp only [enumHasNumber, List.any_eq_true, decide_eq_true_eq] at h4
          obtain ⟨w, hw, hwn⟩ := h4
          exact hwn ▸ List.mem_map_of_mem _ hw
        · simp [parseEnum, h1, h2, h3, h4] at h
    | cons m tl =>
      cases tl with
      | nil =>
        simp [parseEnum, h1, h2] at h
        have hmem : m ∈ suffixMatchesOf ed (normalizeEnumText v) := by
          rw [h2]; exact List.mem_singleton_self m
        simp only [suffixMatchesOf, List.mem_map] at hmem
        obtain ⟨w, hw, hwn⟩ := hmem
        rw [← h]
        exact hwn ▸ List.mem_map_of_mem _ (List.mem_of_mem_filter hw)
      | cons m' tl' => simp [parseEnum, h1, h2] at h

/-- `_apply_field` on the heater-mode path, unfolded to the coercion and
the transport call. -/
theorem applyField_snow_melt (tr : Except ApplyExc Unit) (v : String) :
    applyField tr "dish_config.snow_melt_mode" v
      = (convertPayload "snow_melt_mode" (.tEnum heaterEnum) v).bind
          (fun c => tr.bind fun _ => .ok (serializeAppliedValue c)) := rfl

/-- `_apply_field` on the apply-flag path, unfolded likewise. -/
theorem applyField_apply_flag (tr : Except ApplyExc Unit) (v : String) :
    applyField tr "dish_config.apply_snow_melt_mode" v
      = (convertPayload "apply_snow_melt_mode" .tBool v).bind
          (fun c => tr.bind fun _ => .ok (serializeAppliedValue c)) := rfl

/-- A successful boolean coercion is one of the two booleans. -/
theorem convertPayload_bool_cases (f v : String) (pv : PyVal)
    (h : convertPayload f .tBool v = .ok pv) :
    pv = .vBool true ∨ pv = .vBool false := by
  by_cases h1 : pyLower (pyStrip v) = "1" ∨ pyLower (pyStrip v) = "true" ∨
      pyLower (pyStrip v) = "on" ∨ pyLower (pyStrip v) = "yes"
  · simp [convertPayload, h1] at h
    exact Or.inl h.symm
  · by_cases h2 : pyLower (pyStrip v) = "0" ∨ pyLower (pyStrip v) = "false" ∨
        pyLower (pyStrip v) = "off" ∨ pyLower (pyStrip v) = "no"
    · simp [convertPayload, h1, h2] at h
      exact Or.inr h.symm
    · simp [convertPayload, h1, h2] at h

/-- C2 (counterexample): applying `"on"` to the heater-mode enum field
succeeds but returns `applied="0"` — the decimal text of the resolved
enum number, not the canonical `"on"` the claim states. -/
theorem apply_heater_on_counterexample :
    (setFieldSync (.ok ()) "dish_config.snow_melt_mode" "on").success = true ∧
    (setFieldSync (.ok ()) "dish_config.snow_melt_mode" "on").applied = some "0" ∧
    (setFieldSync (.ok ()) "dish_config.snow_melt_mode" "on").applied ≠ some "on" := by
  refine ⟨rfl, rfl, ?_⟩
  have h0 : (setFieldSync (.ok ()) "dish_config.snow_melt_mode" "on").applied
      = some "0" := rfl
  rw [h0]
  decide

/-- C2 (amended): for every writable field of the (spec-modelled)
DishConfig schema and every legal input, apply succeeds and re-decoding
the returned applied text against the same leaf kind yields the same
canonical value; applying `"on"` to the heater-mode field returns
`applied="0"` (the decimal text of ALWAYS_ON's number), which re-decodes
to the same enum number. -/
theorem apply_redecode_roundtrip :
    (∀ (name : String) (rep : Bool) (ts : TypeSchema) (v : String) (pv : PyVal),
      (name, rep, ts) ∈ dishConfigSchema →
      convertPayload name ts v = .ok pv →
      applyField (.ok ()) ("dish_config." ++ name) v = .ok (serializeAppliedValue pv) ∧
      convertPayload name ts (serializeAppliedValue pv) = .ok pv) ∧
    (applyField (.ok ()) "dish_config.snow_melt_mode" "on" = .ok "0" ∧
      convertPayload "snow_melt_mode" (.tEnum heaterEnum) "0" = .ok (.vInt 0)) := by
  refine ⟨?_, rfl, rfl⟩
  intro name rep ts v pv hmem hconv
  simp only [dishConfigSchema, List.mem_cons, List.mem_singleton, Prod.mk.injEq,
    List.not_mem_nil, or_false] at hmem
  rcases hmem with ⟨hn, hr, ht⟩ | ⟨hn, hr, ht⟩
  · subst hn; subst ht
    constructor
    · rw [show ("dish_config." ++ "snow_melt_mode" : String)
          = "dish_config.snow_melt_mode" from rfl, applyField_snow_melt, hconv]
      rfl
    · have hmap : (parseEnum heaterEnum "snow_melt_mode" (pyStrip v)).map PyVal.vInt
          = .ok pv := hconv
      cases hp : parseEnum heaterEnum "snow_melt_mode" (pyStrip v) with
      | error e => rw [hp] at hmap; simp [Except.map] at hmap
      | ok k =>
        rw [hp] at hmap
        simp only [Except.map, Except.ok.injEq] at hmap
        subst hmap
        have hk := parseEnum_ok_mem _ _ _ _ hp
        simp only [heaterEnum, List.map_cons, List.map_nil, List.mem_cons,
          List.not_mem_nil, or_false] at hk
        rcases hk with hk | hk | hk <;> subst hk <;> rfl
  · subst hn; subst ht
    constructor
    · rw [show ("dish_config." ++ "apply_snow_melt_mode" : String)
          = "dish_config.apply_snow_melt_mode" from rfl, applyField_apply_flag, hconv]
      rfl
    · rcases convertPayload_bool_cases _ _ _ hconv with hpv | hpv <;> subst hpv <;> rfl

/-- C5: value coercion per leaf kind — booleans accept the two
case-insensitive truthy/falsy sets, the ten integer kinds parse base-10,
float/double accept decimal/scientific notation, bytes UTF-8-encode the
text, enums delegate to `_parse_enum`, everything else passes the text
through; every error message names the field and the raw input. -/
theorem convert_payload_by_kind :
    (∀ (f v : String),
      (pyLower (pyStrip v) = "1" ∨ pyLower (pyStrip v) = "true" ∨ pyLower (pyStrip v) = "on" ∨
        pyLower (pyStrip v) = "yes") →
      convertPayload f .tBool v = .ok (.vBool true)) ∧
    (∀ (f v : String),
      (pyLower (pyStrip v) = "0" ∨ pyLower (pyStrip v) = "false" ∨ pyLower (pyStrip v) = "off" ∨
        pyLower (pyStrip v) = "no") →
      convertPayload f .tBool v = .ok (.vBool false)) ∧
    (∀ (f v : String),
      ¬(pyLower (pyStrip v) = "1" ∨ pyLower (pyStrip v) = "true" ∨ pyLower (pyStrip v) = "on" ∨
        pyLower (pyStrip v) = "yes") →
      ¬(pyLower (pyStrip v) = "0" ∨ pyLower (pyStrip v) = "false" ∨ pyLower (pyStrip v) = "off" ∨
        pyLower (pyStrip v) = "no") →
      convertPayload f .tBool v
        = .error (.clientError ("Invalid boolean value for " ++ f ++ ": " ++ v))) ∧
    (∀ (f v : String) (ft : TypeSchema) (n : Int), isIntKind ft = true →
      pyIntParse (pyStrip v) = some n → convertPayload f ft v = .ok (.vInt n)) ∧
    (∀ (f v : String) (ft : TypeSchema), isIntKind ft = true →
      pyIntParse (pyStrip v) = none →
      convertPayload f ft v
        = .error (.clientError ("Invalid integer value for " ++ f ++ ": " ++ v))) ∧
    (∀ (f v : String) (ft : TypeSchema), isFloatKind ft = true →
      pyFloatAccepts (pyStrip v) = true → convertPayload f ft v = .ok (.vFloat (pyStrip v))) ∧
    (∀ (f v : String) (ft : TypeSchema), isFloatKind ft = true →
      pyFloatAccepts (pyStrip v) = false →
      convertPayload f ft v
        = .error (.clientError ("Invalid float value for " ++ f ++ ": " ++ v))) ∧
    (∀ (f v : String), convertPayload f .tBytes v = .ok (.vBytes (pyStrip v))) ∧
    (∀ (f v : String) (ed : EnumDescriptor),
      convertPayload f (.tEnum ed) v = (parseEnum ed f (pyStrip v)).map .vInt) ∧
    (∀ (f v : String), convertPayload f .tString v = .ok (.vStr (pyStrip v))) ∧
    (∀ (f v : String) (sub : List (String × Bool × TypeSchema)),
      convertPayload f (.tMessage sub) v = .ok (.vStr (pyStrip v))) := by
  refine ⟨fun f v h => ?_, fun f v h => ?_, fun f v h1 h2 => ?_,
    fun f v ft n hft h => ?_, fun f v ft hft h => ?_,
    fun f v ft hft h => ?_, fun f v ft hft h => ?_,
    fun f v => rfl, fun f v ed => rfl, fun f v => rfl, fun f v sub => rfl⟩
  · rcases h with h | h | h | h <;> simp [convertPayload, h]
  · rcases h with h | h | h | h <;> simp [convertPayload, h]
  · simp only [convertPayload]
    rw [if_neg h1, if_neg h2]
  · cases ft <;> simp_all [convertPayload, isIntKind]
  · cases ft <;> simp_all [convertPayload, isIntKind]
  · cases ft <;> simp_all [convertPayload, isFloatKind]
  · cases ft <;> simp_all [convertPayload, isFloatKind]

/-- C1: the command-apply boundary is total — every call returns an
`AppliedResult` echoing the requested value; any path-resolution, coercion
or transport failure yields `success=false` with `applied` absent and a
human-readable message (`_format_error` of the exception); and
`apply("bogus.field", "x")` fails with the path error naming the offending
segment `bogus`. -/
theorem set_field_sync_never_raises :
    (∀ (tr : Except ApplyExc Unit) (p v : String),
      (setFieldSync tr p v).requested = v) ∧
    (∀ (tr : Except ApplyExc Unit) (p v : String),
      ((setFieldSync tr p v).success = true ∧
        (∃ a, (setFieldSync tr p v).applied = some a) ∧
        (setFieldSync tr p v).message = none) ∨
      ((setFieldSync tr p v).success = false ∧ (setFieldSync tr p v).applied = none ∧
        ∃ m, (setFieldSync tr p v).message = some m)) ∧
    (∀ (tr : Except ApplyExc Unit) (p v : String) (e : ApplyExc),
      applyField tr p v = .error e →
      setFieldSync tr p v
        = { requested := v, applied := none, success := false,
            message := some (formatError e) }) ∧
    (setFieldSync (.ok ()) "bogus.field" "x"
      = { requested := "x", applied := none, success := false,
          message := some "Unknown field: bogus" }) := by
  refine ⟨fun tr p v => ?_, fun tr p v => ?_, fun tr p v e h => ?_, rfl⟩
  · cases h : applyField tr p v <;> simp [setFieldSync, h]
  · cases h : applyField tr p v
    · exact Or.inr (by simp [setFieldSync, h])
    · exact Or.inl (by simp [setFieldSync, h])
  · simp [setFieldSync, h]

/-- C8: with `FieldFilter = {"dish_config.snow_melt_mode"}` the command
subscription set is exactly the one `/set` topic (no wildcard) and
telemetry publishes only paths equal to the filter or strictly under it as
a dotted prefix; with no filter the single subscription is the `#`
wildcard, which covers every topic under the prefix ending in `/set`. -/
theorem field_filter_scoping :
    (∀ pfx : String, buildCommandSubscriptions pfx ["dish_config.snow_melt_mode"]
      = [fieldSetTopic pfx "dish_config/snow_melt_mode"]) ∧
    (∀ pfx : String, fieldSetTopic pfx "dish_config/snow_melt_mode"
      = pfx ++ "/dish_config/snow_melt_mode/set") ∧
    (∀ (pfx : String) (flat : List (String × JVal)) (topic : String),
      topic ∈ publishedFieldTopics pfx ["dish_config.snow_melt_mode"] flat →
      ∃ path, topic = fieldTopic pfx (replaceChar path '.' '/') ∧
        (path = "dish_config.snow_melt_mode" ∨
          pyStartsWith path ("dish_config.snow_melt_mode" ++ ".") = true)) ∧
    (∀ pfx : String, buildCommandSubscriptions pfx [] = [wildcardTopic pfx]) ∧
    (∀ (pfx path : String),
      coversTopic (wildcardTopic pfx) (fieldSetTopic pfx path) = true) := by
  refine ⟨fun pfx => rfl, fun pfx => ?_, fun pfx flat topic h => ?_,
    fun pfx => rfl, fun pfx path => ?_⟩
  · simp only [fieldSetTopic, fieldTopic, String.append_assoc]
    rfl
  · simp only [publishedFieldTopics, List.mem_map, List.mem_filter] at h
    obtain ⟨⟨path, v⟩, ⟨hmem, hsp⟩, htop⟩ := h
    refine ⟨path, htop.symm, ?_⟩
    simp [shouldPublish] at hsp
    tauto
  · have h1 : (pfx ++ "/#").data = pfx.data ++ ['/', '#'] := by rw [String.data_append]
    simp only [coversTopic, wildcardTopic, h1, List.reverse_append, List.reverse_cons,
      List.reverse_nil, List.nil_append, List.cons_append, List.reverse_reverse]
    simp only [fieldSetTopic, fieldTopic, String.data_append, List.isPrefixOf_iff_prefix]
    simp [List.append_assoc]

/-! ## Dotted-path lemmas

Telemetry keys are protobuf field names: non-empty and dot-free.  Under
that assumption the dotted paths `_flatten_fields` builds are injective,
which is what the never-omitted/never-clobbered statements below need. -/

theorem joinPath_data (p k : String) (hp : p ≠ "") :
    (joinPath p k).data = p.data ++ '.' :: k.data := by
  simp [joinPath, hp, String.data_append]

theorem joinPath_ne_empty {p : String} (k : String) (h : p ≠ "" ∨ k ≠ "") :
    joinPath p k ≠ "" := by
  rcases h with hp | hk
  · intro h0
    have hd := congrArg String.data h0
    rw [joinPath_data _ _ hp] at hd
    simp at hd
  · by_cases hp : p = ""
    · simpa [joinPath, hp] using hk
    · intro h0
      have hd := congrArg String.data h0
      rw [joinPath_data _ _ hp] at hd
      simp at hd

theorem joinPath_key_inj (p : String) {k k' : String} (h : joinPath p k = joinPath p k') :
    k = k' := by
  by_cases hp : p = ""
  · simpa [joinPath, hp] using h
  · have hd := congrArg String.data h
    rw [joinPath_data _ _ hp, joinPath_data _ _ hp] at hd
    have h2 := List.append_cancel_left hd
    injection h2 with _ h3
    exact String.ext h3

theorem joinPath_ne_nested (p k k' t : String) (hk : '.' ∉ k.data) :
    joinPath p k ≠ joinPath p k' ++ "." ++ t := by
  intro h
  apply hk
  have hd := congrArg String.data h
  by_cases hp : p = ""
  · simp only [joinPath, if_pos hp, String.data_append] at hd
    rw [hd]
    simp [show (".".data : List Char) = ['.'] from rfl]
  · rw [joinPath_data _ _ hp, String.data_append, String.data_append,
      joinPath_data _ _ hp, List.append_assoc, List.append_assoc] at hd
    have h2 := List.append_cancel_left hd
    injection h2 with _ h3
    rw [h3]
    simp [show (".".data : List Char) = ['.'] from rfl]

/-! ## Flattening lemmas -/

theorem flattenGo_nil (pfx : String) (acc : List (String × JVal)) :
    flattenGo pfx acc [] = acc := by
  simp [flattenGo]

theorem flattenGo_cons_obj (pfx : String) (acc : List (String × JVal)) (key : String)
    (sub rest : List (String × JVal)) :
    flattenGo pfx acc ((key, .jObj sub) :: rest)
      = if (flattenGo (joinPath pfx key) [] sub).isEmpty
        then flattenGo pfx (dictInsert acc (joinPath pfx key) (.jObj [])) rest
        else flattenGo pfx (dictUpdate acc (flattenGo (joinPath pfx key) [] sub)) rest := by
  rw [flattenGo]

def notObj : JVal → Prop
  | .jObj _ => False
  | _ => True

theorem flattenGo_cons_nonobj (pfx : String) (acc : List (String × JVal)) (key : String)
    (v : JVal) (rest : List (String × JVal)) (h : notObj v) :
    flattenGo pfx acc ((key, v) :: rest)
      = flattenGo pfx (dictInsert acc (joinPath pfx key) v) rest := by
  cases v with
  | jObj sub => exact absurd h (by simp [notObj])
  | jBool b =>
    rw [flattenGo]
    exact fun _ h => nomatch h
  | jInt n =>
    rw [flattenGo]
    exact fun _ h => nomatch h
  | jFloat t =>
    rw [flattenGo]
    exact fun _ h => nomatch h
  | jStr s =>
    rw [flattenGo]
    exact fun _ h => nomatch h
  | jArr xs =>
    rw [flattenGo]
    exact fun _ h => nomatch h

/-- Every entry `_flatten_fields` adds under a non-empty prefix has a key
of the form `prefix ++ "." ++ …`. -/
theorem flattenGo_mem_shape (p : String) (acc l : List (String × JVal)) :
    ∀ x : String × JVal, p ≠ "" → x ∈ flattenGo p acc l →
      x ∈ acc ∨ ∃ t, x.1 = p ++ "." ++ t := by
  induction p, acc, l using flattenGo.induct with
  | case1 pfx acc =>
    intro x hp hx
    rw [flattenGo_nil] at hx
    exact Or.inl hx
  | case2 pfx acc key sub rest nested hnested ihsub ihrest =>
    intro x hp hx
    have hne : (flattenGo (joinPath pfx key) [] sub).isEmpty = true := hnested
    rw [flattenGo_cons_obj, if_pos hne] at hx
    rcases ihrest x hp hx with hx' | ht
    · rcases mem_dictInsert hx' with h | h
      · exact Or.inl h
      · exact Or.inr ⟨key, by rw [h, joinPath, if_neg hp]⟩
    · exact Or.inr ht
  | case3 pfx acc key sub rest nested hnested ihsub ihrest =>
    intro x hp hx
    have hne : ¬(flattenGo (joinPath pfx key) [] sub).isEmpty = true := hnested
    rw [flattenGo_cons_obj, if_neg hne] at hx
    rcases ihrest x hp hx with hx' | ht
    · rcases mem_dictUpdate hx' with h | ⟨y, hy, hxy⟩
      · exact Or.inl h
      · have hk' : joinPath pfx key ≠ "" := joinPath_ne_empty _ (Or.inl hp)
        rcases ihsub y hk' hy with h0 | ⟨t, ht⟩
        · cases h0
        · refine Or.inr ⟨key ++ "." ++ t, ?_⟩
          rw [hxy, ht, joinPath, if_neg hp]
          simp [String.append_assoc]
    · exact Or.inr ht
  | case4 pfx acc key v rest hnotobj ihrest =>
    intro x hp hx
    have hno : notObj v := by
      cases v with
      | jObj s2 => exact (hnotobj s2 rfl).elim
      | jBool b2 => exact trivial
      | jInt n2 => exact trivial
      | jFloat t2 => exact trivial
      | jStr s2 => exact trivial
      | jArr xs2 => exact trivial
    rw [flattenGo_cons_nonobj _ _ _ _ _ hno] at hx
    rcases ihrest x hp hx with hx' | ht
    · rcases mem_dictInsert hx' with h | h
      · exact Or.inl h
      · exact Or.inr ⟨key, by rw [h, joinPath, if_neg hp]⟩
    · exact Or.inr ht

/-- Processing entries whose keys all differ from `name` (all keys
non-empty and dot-free) never touches `name`'s dotted path. -/
theorem flattenGo_get_preserved (p : String) (acc l : List (String × JVal))
    (name : String) :
    '.' ∉ name.data →
    (∀ y ∈ l, y.1 ≠ name ∧ y.1 ≠ "" ∧ '.' ∉ y.1.data) →
    dictGet (flattenGo p acc l) (joinPath p name) = dictGet acc (joinPath p name) := by
  induction p, acc, l using flattenGo.induct with
  | case1 pfx acc =>
    intro _ _
    rw [flattenGo_nil]
  | case2 pfx acc key sub rest nested hnested ihsub ihrest =>
    intro hname hgood
    obtain ⟨hkn, hke, hkd⟩ := hgood _ (List.mem_cons_self _ _)
    have hne : (flattenGo (joinPath pfx key) [] sub).isEmpty = true := hnested
    rw [flattenGo_cons_obj, if_pos hne,
      ihrest hname fun y hy => hgood y (List.mem_cons_of_mem _ hy),
      dictGet_dictInsert_ne _ _ (fun h => hkn (joinPath_key_inj _ h))]
  | case3 pfx acc key sub rest nested hnested ihsub ihrest =>
    intro hname hgood
    obtain ⟨hkn, hke, hkd⟩ := hgood _ (List.mem_cons_self _ _)
    have hne : ¬(flattenGo (joinPath pfx key) [] sub).isEmpty = true := hnested
    rw [flattenGo_cons_obj, if_neg hne,
      ihrest hname fun y hy => hgood y (List.mem_cons_of_mem _ hy)]
    refine dictGet_dictUpdate_notin _ fun y hy => ?_
    have hk' : joinPath pfx key ≠ "" := joinPath_ne_empty _ (Or.inr hke)
    rcases flattenGo_mem_shape _ _ _ y hk' hy with h0 | ⟨t, ht⟩
    · cases h0
    · rw [ht]
      intro hcontra
      exact joinPath_ne_nested pfx name key t hname hcontra.symm
  | case4 pfx acc key v rest hnotobj ihrest =>
    intro hname hgood
    obtain ⟨hkn, hke, hkd⟩ := hgood _ (List.mem_cons_self _ _)
    have hno : notObj v := by
      cases v with
      | jObj s2 => exact (hnotobj s2 rfl).elim
      | jBool b2 => exact trivial
      | jInt n2 => exact trivial
      | jFloat t2 => exact trivial
      | jStr s2 => exact trivial
      | jArr xs2 => exact trivial
    rw [flattenGo_cons_nonobj _ _ _ _ _ hno,
      ihrest hname fun y hy => hgood y (List.mem_cons_of_mem _ hy),
      dictGet_dictInsert_ne _ _ (fun h => hkn (joinPath_key_inj _ h))]

/-- The flattened output maps `name`'s dotted path to exactly the stored
value, for a value the flattener does not expand (a non-dict, or the empty
dict marker) — never omitted, never clobbered. -/
theorem flattenGo_get_flat (p : String) (acc l : List (String × JVal)) :
    ∀ (name : String) (v : JVal),
      (dictKeys l).Nodup →
      (∀ k ∈ dictKeys l, k ≠ "" ∧ '.' ∉ k.data) →
      '.' ∉ name.data →
      dictGet l name = some v →
      (v = .jObj [] ∨ notObj v) →
      dictGet (flattenGo p acc l) (joinPath p name) = some v := by
  induction p, acc, l using flattenGo.induct with
  | case1 pfx acc =>
    intro name v _ _ _ hget _
    simp [dictGet] at hget
  | case2 pfx acc key sub rest nested hnested ihsub ihrest =>
    intro name v hnd hgood hname hget hflat
    have hne : (flattenGo (joinPath pfx key) [] sub).isEmpty = true := hnested
    rw [flattenGo_cons_obj, if_pos hne]
    by_cases hk : key = name
    · subst hk
      have hv : JVal.jObj sub = v := by simpa [dictGet] using hget
      have hsub : sub = [] := by
        rcases hflat with h | h
        · rw [← hv] at h
          injection h
        · rw [← hv] at h
          exact absurd h (by simp [notObj])
      subst hsub
      rw [flattenGo_get_preserved _ _ _ _ hname ?_, dictGet_dictInsert_self, hv]
      intro y hy
      have hnk : y.1 ≠ key := by
        have : y.1 ∈ dictKeys rest := List.mem_map_of_mem _ hy
        intro h
        rw [h] at this
        exact (List.nodup_cons.mp hnd).1 this
      exact ⟨hnk, (hgood y.1 (List.mem_cons_of_mem _ (List.mem_map_of_mem _ hy))).1,
        (hgood y.1 (List.mem_cons_of_mem _ (List.mem_map_of_mem _ hy))).2⟩
    · have hget' : dictGet rest name = some v := by
        simpa [dictGet, hk] using hget
      exact ihrest name v (List.nodup_cons.mp hnd).2
        (fun k hk' => hgood k (List.mem_cons_of_mem _ hk')) hname hget' hflat
  | case3 pfx acc key sub rest nested hnested ihsub ihrest =>
    intro name v hnd hgood hname hget hflat
    have hne : ¬(flattenGo (joinPath pfx key) [] sub).isEmpty = true := hnested
    rw [flattenGo_cons_obj, if_neg hne]
    by_cases hk : key = name
    · subst hk
      have hv : JVal.jObj sub = v := by simpa [dictGet] using hget
      have hsub : sub = [] := by
        rcases hflat with h | h
        · rw [← hv] at h
          injection h
        · rw [← hv] at h
          exact absurd h (by simp [notObj])
      subst hsub
      rw [flattenGo_nil] at hne
      simp at hne
    · have hget' : dictGet rest name = some v := by
        simpa [dictGet, hk] using hget
      exact ihrest name v (List.nodup_cons.mp hnd).2
        (fun k hk' => hgood k (List.mem_cons_of_mem _ hk')) hname hget' hflat
  | case4 pfx acc key v0 rest hnotobj ihrest =>
    intro name v hnd hgood hname hget hflat
    have hno : notObj v0 := by
      cases v0 with
      | jObj s2 => exact (hnotobj s2 rfl).elim
      | jBool b2 => exact trivial
      | jInt n2 => exact trivial
      | jFloat t2 => exact trivial
      | jStr s2 => exact trivial
      | jArr xs2 => exact trivial
    rw [flattenGo_cons_nonobj _ _ _ _ _ hno]
    by_cases hk : key = name
    · subst hk
      have hv : v0 = v := by simpa [dictGet] using hget
      subst hv
      rw [flattenGo_get_preserved _ _ _ _ hname ?_, dictGet_dictInsert_self]
      intro y hy
      have hnk : y.1 ≠ key := by
        have : y.1 ∈ dictKeys rest := List.mem_map_of_mem _ hy
        intro h
        rw [h] at this
        exact (List.nodup_cons.mp hnd).1 this
      exact ⟨hnk, (hgood y.1 (List.mem_cons_of_mem _ (List.mem_map_of_mem _ hy))).1,
        (hgood y.1 (List.mem_cons_of_mem _ (List.mem_map_of_mem _ hy))).2⟩
    · have hget' : dictGet rest name = some v := by
        simpa [dictGet, hk] using hget
      exact ihrest name v (List.nodup_cons.mp hnd).2
        (fun k hk' => hgood k (List.mem_cons_of_mem _ hk')) hname hget' hflat

/-! ## `_proto_to_dict` lemmas -/

def fieldNames (fields : List PEntry) : List String := fields.map entryName

theorem msgToDict_cons (acc : List (String × JVal)) (e : PEntry) (rest : List PEntry) :
    msgToDict acc (e :: rest) = msgToDict (dictInsert acc (entryName e) (entryVal e)) rest :=
  rfl

theorem dictGet_msgToDict_notmem (fields : List PEntry) :
    ∀ (acc : List (String × JVal)) (k : String), k ∉ fieldNames fields →
    dictGet (msgToDict acc fields) k = dictGet acc k := by
  induction fields with
  | nil => intro acc k _; rfl
  | cons e rest ih =>
    intro acc k h
    rw [msgToDict_cons, ih _ _ fun hm => h (List.mem_cons_of_mem _ hm),
      dictGet_dictInsert_ne _ _ fun he => h (by rw [← he]; exact List.mem_cons_self _ _)]

theorem dictGet_msgToDict_mem (fields : List PEntry) :
    ∀ (acc : List (String × JVal)) (e : PEntry), (fieldNames fields).Nodup →
    e ∈ fields →
    dictGet (msgToDict acc fields) (entryName e) = some (entryVal e) := by
  induction fields with
  | nil => intro acc e _ he; cases he
  | cons e' rest ih =>
    intro acc e hnd he
    rcases List.mem_cons.mp he with rfl | hmem
    · rw [msgToDict_cons,
        dictGet_msgToDict_notmem _ _ _ (List.nodup_cons.mp hnd).1,
        dictGet_dictInsert_self]
    · rw [msgToDict_cons]
      exact ih _ _ (List.nodup_cons.mp hnd).2 hmem

theorem dictInsert_notmem {α : Type} (d : List (String × α)) (k : String) (v : α)
    (h : k ∉ dictKeys d) : dictInsert d k v = d ++ [(k, v)] := by
  induction d with
  | nil => rfl
  | cons hd tl ih =>
    obtain ⟨a, b⟩ := hd
    have ha : a ≠ k := fun he => h (he ▸ List.mem_cons_self _ _)
    simp only [dictInsert, ha, if_false]
    rw [ih fun hm => h (List.mem_cons_of_mem _ hm)]
    rfl

theorem dictKeys_msgToDict (fields : List PEntry) :
    ∀ acc : List (String × JVal), (fieldNames fields).Nodup →
    (∀ n ∈ fieldNames fields, n ∉ dictKeys acc) →
    dictKeys (msgToDict acc fields) = dictKeys acc ++ fieldNames fields := by
  induction fields with
  | nil => intro acc _ _; simp [msgToDict, fieldNames]
  | cons e rest ih =>
    intro acc hnd hdis
    have hdis2 : ∀ n ∈ fieldNames rest,
        n ∉ dictKeys (acc ++ [(entryName e, entryVal e)]) := by
      intro n hn
      simp only [dictKeys, List.map_append, List.mem_append, List.map_cons,
        List.map_nil, List.mem_singleton]
      rintro (hmem | hmem)
      · exact hdis n (List.mem_cons_of_mem _ hn) hmem
      · exact (List.nodup_cons.mp hnd).1 (hmem ▸ hn)
    rw [msgToDict_cons,
      dictInsert_notmem _ _ _ (hdis _ (List.mem_cons_self _ _)),
      ih _ (List.nodup_cons.mp hnd).2 hdis2]
    simp [dictKeys, fieldNames]

theorem itemsToJ_eq_map (items : List (List PEntry)) :
    itemsToJ items = items.map fun item => JVal.jObj (msgToDict [] item) := by
  induction items with
  | nil => rfl
  | cons item rest ih => rw [itemsToJ, ih, List.map_cons]

/-- C10: in the telemetry dict `_proto_to_dict` builds, a singular
enum-kind field whose number is a known value of its enum is rendered as
that value's symbolic name, and numerically only when no value carries the
number — a known enum value is never rendered as its number. -/
theorem enum_values_rendered_symbolically :
    (∀ (name : String) (ed : EnumDescriptor) (n : Int) (ev : EnumValueDescriptor),
      lookupByNumber ed n = some ev →
      entryVal (.singEnum name ed n) = .jStr ev.name) ∧
    (∀ (name : String) (ed : EnumDescriptor) (n : Int),
      lookupByNumber ed n = none → entryVal (.singEnum name ed n) = .jInt n) ∧
    (∀ (name : String) (ed : EnumDescriptor) (n j : Int),
      entryVal (.singEnum name ed n) = .jInt j →
      lookupByNumber ed n = none ∧ j = n) ∧
    (∀ (fields : List PEntry) (name : String) (ed : EnumDescriptor) (n : Int),
      (fieldNames fields).Nodup → PEntry.singEnum name ed n ∈ fields →
      dictGet (msgToDict [] fields) name = some (entryVal (.singEnum name ed n))) ∧
    (msgToDict [] [.singEnum "snow_melt_mode" heaterEnum 2]
        = [("snow_melt_mode", .jStr "AUTO")] ∧
      msgToDict [] [.singEnum "snow_melt_mode" heaterEnum 9]
        = [("snow_melt_mode", .jInt 9)]) := by
  refine ⟨fun name ed n ev h => by simp [entryVal, h],
    fun name ed n h => by simp [entryVal, h],
    fun name ed n j h => ?_,
    fun fields name ed n hnd hmem => dictGet_msgToDict_mem _ _ _ hnd hmem,
    rfl, rfl⟩
  cases hl : lookupByNumber ed n with
  | some ev => simp [entryVal, hl] at h
  | none =>
    simp only [entryVal, hl, JVal.jInt.injEq] at h
    exact ⟨rfl, h.symm⟩

/-- C6 (counterexample): a repeated message field whose item holds a
nested submessage is emitted as the array of the items' *nested* dict
conversions — the element is not the flattened (dotted path → value) map
of the item the claim describes. -/
theorem flatten_repeated_nested_counterexample :
    dictGet (flattenFields (msgToDict []
        [.repMsg "r" [[.singMsg "b" false true [.singScalar "c" (.sInt 5)]]]])) "r"
      = some (.jArr [.jObj [("b", .jObj [("c", .jInt 5)])]]) ∧
    flattenFields [("b", .jObj [("c", .jInt 5)])] = [("b.c", .jInt 5)] ∧
    (JVal.jObj [("b", .jObj [("c", .jInt 5)])]
      ≠ .jObj (flattenFields [("b", .jObj [("c", .jInt 5)])])) := by
  refine ⟨?_, ?_, ?_⟩
  · simp [flattenFields, flattenGo, joinPath, dictInsert, dictUpdate, List.foldl,
      msgToDict, entryVal, entryName, itemsToJ, dictGet, scalarToJ]
  · simp [flattenFields, flattenGo, joinPath, dictInsert, dictUpdate, List.foldl,
      scalarToJ]
  · simp [flattenFields, flattenGo, joinPath, dictInsert, dictUpdate, List.foldl,
      scalarToJ]

/-- C6 (amended): for a message whose field names are unique, non-empty
and dot-free, the flattened telemetry maps the dotted path of every
singular message field whose recursive conversion is empty (an absent
optional submessage included) to the explicit `{}` marker — never
omitted; a repeated message field maps to the array of its items'
recursively converted (nested, not dot-flattened) dicts; a repeated
scalar field maps to the array of its scalars. -/
theorem flatten_empty_marker_and_arrays :
    (∀ (pfx : String) (fields : List PEntry) (name : String) (hp pres : Bool)
        (sub : List PEntry),
      (fieldNames fields).Nodup →
      (∀ k ∈ fieldNames fields, k ≠ "" ∧ '.' ∉ k.data) →
      '.' ∉ name.data →
      PEntry.singMsg name hp pres sub ∈ fields →
      ((hp = true ∧ pres = false) ∨ msgToDict [] sub = []) →
      dictGet (flattenGo pfx [] (msgToDict [] fields)) (joinPath pfx name)
        = some (.jObj [])) ∧
    (∀ (pfx : String) (fields : List PEntry) (name : String)
        (items : List (List PEntry)),
      (fieldNames fields).Nodup →
      (∀ k ∈ fieldNames fields, k ≠ "" ∧ '.' ∉ k.data) →
      '.' ∉ name.data →
      PEntry.repMsg name items ∈ fields →
      dictGet (flattenGo pfx [] (msgToDict [] fields)) (joinPath pfx name)
        = some (.jArr (items.map fun item => JVal.jObj (msgToDict [] item)))) ∧
    (∀ (pfx : String) (fields : List PEntry) (name : String) (vs : List ScalarVal),
      (fieldNames fields).Nodup →
      (∀ k ∈ fieldNames fields, k ≠ "" ∧ '.' ∉ k.data) →
      '.' ∉ name.data →
      PEntry.repScalar name vs ∈ fields →
      dictGet (flattenGo pfx [] (msgToDict [] fields)) (joinPath pfx name)
        = some (.jArr (vs.map scalarToJ))) ∧
    (flattenFields (msgToDict []
        [.singMsg "opt" true false [.singScalar "z" (.sInt 1)],
         .repScalar "xs" [.sInt 1, .sInt 2],
         .repMsg "r" [[.singScalar "c" (.sInt 5)]]])
      = [("opt", .jObj []), ("xs", .jArr [.jInt 1, .jInt 2]),
         ("r", .jArr [.jObj [("c", .jInt 5)]])]) := by
  have keys_eq : ∀ fields : List PEntry, (fieldNames fields).Nodup →
      dictKeys (msgToDict [] fields) = fieldNames fields := by
    intro fields hnd
    have := dictKeys_msgToDict fields [] hnd (by simp [dictKeys])
    simpa [dictKeys] using this
  refine ⟨?_, ?_, ?_, ?_⟩
  · intro pfx fields name hp pres sub hnd hgood hname hmem hempty
    have hval : entryVal (.singMsg name hp pres sub) = .jObj [] := by
      rcases hempty with ⟨hhp, hpres⟩ | hsub
      · simp [entryVal, hhp, hpres]
      · simp [entryVal, hsub]
    have hget : dictGet (msgToDict [] fields) name = some (.jObj []) := by
      have := dictGet_msgToDict_mem fields [] _ hnd hmem
      rwa [show entryName (.singMsg name hp pres sub) = name from rfl, hval] at this
    exact flattenGo_get_flat _ _ _ name (.jObj [])
      ((keys_eq fields hnd).symm ▸ hnd)
      (fun k hk => hgood k ((keys_eq fields hnd) ▸ hk))
      hname hget (Or.inl rfl)
  · intro pfx fields name items hnd hgood hname hmem
    have hget : dictGet (msgToDict [] fields) name
        = some (.jArr (items.map fun item => JVal.jObj (msgToDict [] item))) := by
      have := dictGet_msgToDict_mem fields [] _ hnd hmem
      rwa [show entryName (.repMsg name items) = name from rfl,
        show entryVal (.repMsg name items) = .jArr (itemsToJ items) from rfl,
        itemsToJ_eq_map] at this
    exact flattenGo_get_flat _ _ _ name _
      ((keys_eq fields hnd).symm ▸ hnd)
      (fun k hk => hgood k ((keys_eq fields hnd) ▸ hk))
      hname hget (Or.inr trivial)
  · intro pfx fields name vs hnd hgood hname hmem
    have hget : dictGet (msgToDict [] fields) name
        = some (.jArr (vs.map scalarToJ)) := by
      have := dictGet_msgToDict_mem fields [] _ hnd hmem
      rwa [show entryName (.repScalar name vs) = name from rfl,
        show entryVal (.repScalar name vs) = .jArr (vs.map scalarToJ) from rfl] at this
    exact flattenGo_get_flat _ _ _ name _
      ((keys_eq fields hnd).symm ▸ hnd)
      (fun k hk => hgood k ((keys_eq fields hnd) ▸ hk))
      hname hget (Or.inr trivial)
  · simp [flattenFields, flattenGo, joinPath, dictInsert, dictUpdate, List.foldl,
      msgToDict, entryVal, entryName, itemsToJ, scalarToJ]

end StarlinkBridge
